import Mathlib

/-!
Verification of the qifutil QIF-conversion pipelines: category/tag
splitting, transaction-entry parsing, amount normalization, date-range
filtering, output batching and file naming, CSV row rendering, and the
daily balance-reconstruction engine.

Go strings are modelled as `List Char`; Go maps with string keys are
modelled as association lists with pairwise-distinct keys; Go `float64`
amounts are modelled as exact rationals (the balance claims are stated
in exact arithmetic).
-/

namespace QifUtil

/-- A Go string, as a list of characters. -/
abbrev GoStr := List Char

/-- The double-quote character. -/
def quoteCh : Char := Char.ofNat 34

/-- The apostrophe character (QIF date separator). -/
def aposCh : Char := Char.ofNat 39

/-- Whitespace recognised by Go's `unicode.IsSpace` in the Latin-1 range
(`strings.TrimSpace` trims exactly these; higher-plane Unicode spaces do
not occur in QIF exports and are out of scope). -/
def isGoSpace (c : Char) : Bool :=
  c == ' ' || c == Char.ofNat 9 || c == Char.ofNat 10 || c == Char.ofNat 11 ||
  c == Char.ofNat 12 || c == Char.ofNat 13 || c == Char.ofNat 133 || c == Char.ofNat 160

/-- Go `strings.TrimSpace`. -/
def trimSpace (s : GoStr) : GoStr :=
  ((s.dropWhile isGoSpace).reverse.dropWhile isGoSpace).reverse

/-- Go `strings.ReplaceAll(s, ",", "")` as used on amount strings. -/
def removeCommas (s : GoStr) : GoStr := s.filter (fun c => !(c == ','))

/-- Go `strings.ReplaceAll(s, "\x22", "")` as used on payee strings. -/
def removeQuotes (s : GoStr) : GoStr := s.filter (fun c => !(c == quoteCh))

/-- Go `strings.Index(s, "/")` together with the two slices
`s[:idx]` and `s[idx+1:]`: `some (before, after)` splits at the first
slash, `none` means no slash occurs. -/
def breakAtSlash : GoStr → Option (GoStr × GoStr)
  | [] => none
  | c :: cs =>
    if c = '/' then some ([], cs)
    else
      match breakAtSlash cs with
      | some (a, b) => some (c :: a, b)
      | none => none

/-- Function `utils.SplitCategoryAndTag`: split a category field on the first `/`
only, trimming whitespace from both resulting components; with no slash
the whole (trimmed) input is the category and the tag is empty. -/
def SplitCategoryAndTag (categoryField : GoStr) : GoStr × GoStr :=
  match breakAtSlash categoryField with
  | some (a, b) => (trimSpace a, trimSpace b)
  | none => (trimSpace categoryField, [])

/-! ### `sortDates` (balancehistory.go)

The Go code sorts the date-key slice with a nested exchange loop:
for each outer index `i`, every later `j` with `dates[j] < dates[i]`
swaps the two.  During the inner pass `dates[i]` always holds the
running minimum, so one outer step is `selPass`: it walks the suffix
left to right, exchanging the running minimum whenever a smaller
element is met, and returns the final minimum together with the
rewritten suffix.  The outer loop runs exactly `length` times, which
`sortAux`'s fuel mirrors. -/

/-- One inner pass of the Go exchange sort: scan the suffix with the
current value of `dates[i]`, swapping whenever a smaller element is
found; returns the final `dates[i]` and the rewritten suffix. -/
def selPass {α : Type} [LinearOrder α] : α → List α → α × List α
  | m, [] => (m, [])
  | m, x :: xs =>
    if x < m then
      ((selPass x xs).1, m :: (selPass x xs).2)
    else
      ((selPass m xs).1, x :: (selPass m xs).2)

/-- The outer loop of `sortDates`, with fuel equal to the number of
remaining outer iterations (the Go loop runs once per index). -/
def sortAux {α : Type} [LinearOrder α] : ℕ → List α → List α
  | 0, l => l
  | _ + 1, [] => []
  | n + 1, x :: xs => (selPass x xs).1 :: sortAux n (selPass x xs).2

/-- Function `sortDates` from balancehistory.go: in-place exchange sort of the
date-key strings under Go's lexicographic string order. -/
def sortDates {α : Type} [LinearOrder α] (dates : List α) : List α :=
  sortAux dates.length dates

/-! ### Daily delta accumulation and the balance engine
(balancehistory.go, `Run`)

`dailyBalances[fullDate] += amountFloat` on a Go map, with `dateKeys`
recording first-insertion order, is an association list whose entry for
an existing date is bumped in place and whose new dates are appended. -/

/-- One `dailyBalances[date] += amount` step on the association list. -/
def bump : List (GoStr × ℚ) → GoStr → ℚ → List (GoStr × ℚ)
  | [], d, a => [(d, a)]
  | (k, v) :: m, d, a =>
    if k = d then (k, v + a) :: m else (k, v) :: bump m d a

/-- Fold every admitted `(date, amount)` pair into the daily-delta map. -/
def accumDeltas (adm : List (GoStr × ℚ)) : List (GoStr × ℚ) :=
  adm.foldl (fun m p => bump m p.1 p.2) []

/-- Reading the Go map: the stored delta, `0` for an absent key. -/
def lookupD : List (GoStr × ℚ) → GoStr → ℚ
  | [], _ => 0
  | (k, v) :: m, d => if k = d then v else lookupD m d

/-- Value `totalChange`: the sum of all daily deltas (Go iterates the map;
the sum does not depend on the order). -/
def totalOf (m : List (GoStr × ℚ)) : ℚ := (m.map Prod.snd).sum

/-- The emission loop shared by both modes: iterate the sorted date
keys, add each date's delta to the running balance, and emit the pair
after the update. -/
def runForward (bal : ℚ) (m : List (GoStr × ℚ)) : List GoStr → List (GoStr × ℚ)
  | [] => []
  | d :: ds => (d, bal + lookupD m d) :: runForward (bal + lookupD m d) m ds

/-- Exactly one of `--openingBalance` / `--currentBalance` is supplied
(validated in `PreRun`). -/
inductive BalanceAnchor : Type where
  | opening (b : ℚ)
  | current (b : ℚ)

/-- The balance-reconstruction engine over a daily-delta map: forward
mode starts from the opening balance; backward mode first sums all
deltas and starts from `currentBalance - totalChange`. -/
def balanceFromDeltas : BalanceAnchor → List (GoStr × ℚ) → List (GoStr × ℚ)
  | BalanceAnchor.opening b, m => runForward b m (sortDates (m.map Prod.fst))
  | BalanceAnchor.current b, m => runForward (b - totalOf m) m (sortDates (m.map Prod.fst))

/-- The full engine on the admitted `(date, amount)` pairs: accumulate
daily deltas, then reconstruct.  (The Go code formats each balance with
`%.2f` when writing the CSV; the claims are about the exact values.) -/
def balanceSeries (a : BalanceAnchor) (adm : List (GoStr × ℚ)) : List (GoStr × ℚ) :=
  balanceFromDeltas a (accumDeltas adm)

/-! ### Canonical dates and the date-range filter
(transactions.go / balancehistory.go)

Both pipelines build `fullDate = "20"+year + "-" + pad(month) + "-" +
pad(day)` and compare `time.Parse("2006-01-02", fullDate)` against the
(prevalidated) bounds, *ignoring the parse error*: a failed parse
leaves Go's zero time (January 1, year 1). -/

/-- A parsed `time.Time` restricted to its calendar date. -/
structure GoDate : Type where
  year : ℕ
  month : ℕ
  day : ℕ
deriving DecidableEq, Repr

/-- Go's zero `time.Time`, the value left behind by a failed parse. -/
def zeroGoDate : GoDate := ⟨1, 1, 1⟩

/-- Chronological order on dates (`time.Time.Before` for values that
came from `time.Parse("2006-01-02", ...)`). -/
def dateBefore (a b : GoDate) : Bool :=
  a.year < b.year ||
  (a.year == b.year && (a.month < b.month ||
    (a.month == b.month && a.day < b.day)))

/-- Numeric value of an ASCII digit. -/
def digitVal (c : Char) : ℕ := c.toNat - 48

/-- Go leap-year rule (`time.isLeap`). -/
def isLeapYear (y : ℕ) : Bool :=
  y % 4 == 0 && (y % 100 != 0 || y % 400 == 0)

/-- Days in a month, as validated by Go's `time.Parse`. -/
def daysInMonth (y m : ℕ) : ℕ :=
  if m = 1 || m = 3 || m = 5 || m = 7 || m = 8 || m = 10 || m = 12 then 31
  else if m = 4 || m = 6 || m = 9 || m = 11 then 30
  else if m = 2 then (if isLeapYear y then 29 else 28)
  else 0

/-- Go `time.Parse("2006-01-02", s)`: ten characters `dddd-dd-dd`, with
the month in 1..12 and the day within the month's length. -/
def parseGoDate (s : GoStr) : Option GoDate :=
  match s with
  | [y1, y2, y3, y4, h1, m1, m2, h2, d1, d2] =>
    if y1.isDigit && y2.isDigit && y3.isDigit && y4.isDigit &&
       h1 == '-' && m1.isDigit && m2.isDigit && h2 == '-' &&
       d1.isDigit && d2.isDigit then
      let y := ((digitVal y1 * 10 + digitVal y2) * 10 + digitVal y3) * 10 + digitVal y4
      let m := digitVal m1 * 10 + digitVal m2
      let d := digitVal d1 * 10 + digitVal d2
      if 1 ≤ m && m ≤ 12 && 1 ≤ d && d ≤ daysInMonth y m then
        some ⟨y, m, d⟩
      else none
    else none
  | _ => none

/-- Padding `month = "0" + month; fullMonth = month[len(month)-2:]`: prepend a
zero and keep the last two characters. -/
def pad2 (s : GoStr) : GoStr :=
  ('0' :: s).drop (('0' :: s).length - 2)

/-- Assembly `fullDate := "20" + year + "-" + fullMonth + "-" + fullDay`. -/
def mkFullDate (year month day : GoStr) : GoStr :=
  ('2' :: '0' :: year) ++ '-' :: (pad2 month ++ '-' :: pad2 day)

/-- The inclusive date-range admission test exactly as coded: the
record's date string is parsed *with the error discarded* (zero time on
failure), then compared against the optional bounds with
`Before`/`After`; `continue` on either failure. -/
def dateFilterAdmits (startD endD : Option GoDate) (fullDate : GoStr) : Bool :=
  let transDate := (parseGoDate fullDate).getD zeroGoDate
  let startOK := match startD with
    | some s => !(dateBefore transDate s)
    | none => true
  let endOK := match endD with
    | some e => !(dateBefore e transDate)
    | none => true
  startOK && endOK

/-! ### Amount normalization (transactions.go 446-455,
balancehistory.go 250-260)

`strconv.ParseFloat` is Go library code; it is modelled on the plain
decimal grammar (optional sign, digits with optional fraction, optional
exponent) — the special forms `inf`/`NaN`/hex have no finite rational
value and do not occur in QIF amounts.  `fmt.Sprintf("%.2f", x)` is
modelled as exact rounding half-to-even to two decimals. -/

/-- Value of a digit string. -/
def natOfDigits (ds : GoStr) : ℕ :=
  ds.foldl (fun a c => a * 10 + digitVal c) 0

/-- Decimal digits of a natural number (as printed by `%d`). -/
def natDigits (n : ℕ) : GoStr := Nat.toDigits 10 n

/-- The optional exponent part `e±ddd` and end of string. -/
def parseExpPart (base : ℚ) : GoStr → Option ℚ
  | [] => some base
  | c :: r =>
    if c == 'e' || c == 'E' then
      let signPos := !(r.headD 'x' == '-')
      let r2 := if r.headD 'x' == '-' || r.headD 'x' == '+' then r.drop 1 else r
      let ds := r2.takeWhile Char.isDigit
      if ds.isEmpty || !(r2.dropWhile Char.isDigit).isEmpty then none
      else if signPos then some (base * 10 ^ natOfDigits ds)
      else some (base / 10 ^ natOfDigits ds)
    else none

/-- The unsigned mantissa `ddd[.ddd]` (at least one digit), then the
optional exponent. -/
def parseFloatBody (s : GoStr) : Option ℚ :=
  let ip := s.takeWhile Char.isDigit
  let r1 := s.dropWhile Char.isDigit
  match r1 with
  | '.' :: r2 =>
    let fp := r2.takeWhile Char.isDigit
    let r3 := r2.dropWhile Char.isDigit
    if ip.isEmpty && fp.isEmpty then none
    else parseExpPart ((natOfDigits ip : ℚ) + (natOfDigits fp : ℚ) / (10 : ℚ) ^ fp.length) r3
  | _ =>
    if ip.isEmpty then none else parseExpPart (natOfDigits ip : ℚ) r1

/-- Go `strconv.ParseFloat(s, 64)` on the decimal grammar: `none` is a
parse error. -/
def goParseFloat (s : GoStr) : Option ℚ :=
  match s with
  | '+' :: r => parseFloatBody r
  | '-' :: r => (parseFloatBody r).map Neg.neg
  | _ => parseFloatBody s

/-- Round to the nearest integer, ties to even. -/
def roundHalfEven (q : ℚ) : ℤ :=
  let f : ℤ := Rat.floor q
  if q - f < 1 / 2 then f
  else if (1 : ℚ) / 2 < q - f then f + 1
  else if f % 2 = 0 then f else f + 1

/-- Two decimal digits with a leading zero when needed. -/
def padFrac2 (n : ℕ) : GoStr := if n < 10 then '0' :: natDigits n else natDigits n

/-- Formatting `fmt.Sprintf("%.2f", q)` in exact arithmetic. -/
def fmtF2 (q : ℚ) : GoStr :=
  let n := roundHalfEven (q * 100)
  let sign : GoStr := if n < 0 then ['-'] else []
  sign ++ natDigits (n.natAbs / 100) ++ '.' :: padFrac2 (n.natAbs % 100)

/-- transactions.go 446-455: trim, strip thousands commas, parse; on
success re-format with two decimals, on failure *keep the comma-stripped
string as-is* (the code prints a warning and continues). -/
def normalizeAmount (raw : GoStr) : GoStr :=
  let cleaned := removeCommas (trimSpace raw)
  match goParseFloat cleaned with
  | some q => fmtF2 q
  | none => cleaned

/-! ### The transaction-entry pattern

Both pipelines match entries with one line-anchored pattern over the
account block:

transactions.go 234 (payee *and* memo optional):
`D<month>/<sp?><day>'<year>` then `U<amount1>`, `T<amount2>`,
`C<cleared>`, `(N<number>)?`, `(P<payee>)?`, `(M<memo>)?`, `L<category>`.

balancehistory.go 230 makes the payee line mandatory (only `N` and `M`
are optional there).

The embedding works on the entry's sequence of newline-terminated
lines; `.*?` before `[\r\n]+` captures the whole remainder of a line,
and an absent optional group captures the empty string.  Optional
groups are greedy with ordered backtracking, mirrored by `<|>`. -/

/-- A `FindAllStringSubmatch` row, with one named field per capture
group (empty for an absent optional group). -/
structure RawTxn : Type where
  month : GoStr
  day : GoStr
  year : GoStr
  amount1 : GoStr
  amount2 : GoStr
  cleared : GoStr
  number : GoStr
  payee : GoStr
  memo : GoStr
  category : GoStr
deriving DecidableEq, Repr

/-- Match one line against its leading marker character, yielding the
captured remainder of the line. -/
def lineTag (tag : Char) : GoStr → Option GoStr
  | [] => none
  | c :: cs => if c = tag then some cs else none

/-- The date line `D<m>/<sp?><d>'<yy>`: one or two digits, a slash, an
optional single whitespace, one or two digits, an apostrophe, exactly
two digits, end of line. -/
def parseDLine (l : GoStr) : Option (GoStr × GoStr × GoStr) :=
  match l with
  | c :: r =>
    if c = 'D' then
      let ms := r.takeWhile Char.isDigit
      let r1 := r.dropWhile Char.isDigit
      if 1 ≤ ms.length && ms.length ≤ 2 then
        match r1 with
        | '/' :: r2 =>
          let r3 := if (r2.headD 'x').isWhitespace then r2.drop 1 else r2
          let ds := r3.takeWhile Char.isDigit
          let r4 := r3.dropWhile Char.isDigit
          if 1 ≤ ds.length && ds.length ≤ 2 then
            match r4 with
            | a :: y1 :: y2 :: rest =>
              if a = aposCh && y1.isDigit && y2.isDigit && rest = [] then
                some (ms, ds, [y1, y2])
              else none
            | _ => none
          else none
        | _ => none
      else none
    else none
  | [] => none

/-- The mandatory category line; any lines after it lie outside the
match. -/
def parseL : List GoStr → Option GoStr
  | l :: _ => lineTag 'L' l
  | [] => none

/-- Optional memo line, then the category line. -/
def parseM (ls : List GoStr) : Option (GoStr × GoStr) :=
  (match ls with
   | l :: rest => (lineTag 'M' l).bind fun mm => (parseL rest).map fun c => (mm, c)
   | [] => none) <|>
  (parseL ls).map fun c => ([], c)

/-- Payee line (optional only in the transactions-export pattern), then
memo and category. -/
def parseP (payeeOptional : Bool) (ls : List GoStr) : Option (GoStr × GoStr × GoStr) :=
  if payeeOptional then
    (match ls with
     | l :: rest => (lineTag 'P' l).bind fun p => (parseM rest).map fun mc => (p, mc.1, mc.2)
     | [] => none) <|>
    (parseM ls).map fun mc => ([], mc.1, mc.2)
  else
    match ls with
    | l :: rest => (lineTag 'P' l).bind fun p => (parseM rest).map fun mc => (p, mc.1, mc.2)
    | [] => none

/-- Optional check-number line, then the rest. -/
def parseN (payeeOptional : Bool) (ls : List GoStr) :
    Option (GoStr × GoStr × GoStr × GoStr) :=
  (match ls with
   | l :: rest =>
     (lineTag 'N' l).bind fun n =>
       (parseP payeeOptional rest).map fun pmc => (n, pmc.1, pmc.2.1, pmc.2.2)
   | [] => none) <|>
  (parseP payeeOptional ls).map fun pmc => ([], pmc.1, pmc.2.1, pmc.2.2)

/-- Match one transaction entry (a candidate starting at its `D` line)
against the pattern; `payeeOptional` selects between the two source
patterns. -/
def parseEntry (payeeOptional : Bool) (ls : List GoStr) : Option RawTxn :=
  match ls with
  | dl :: ul :: tl :: cl :: rest =>
    (parseDLine dl).bind fun mdy =>
      (lineTag 'U' ul).bind fun a1 =>
        (lineTag 'T' tl).bind fun a2 =>
          (lineTag 'C' cl).bind fun cf =>
            (parseN payeeOptional rest).map fun npmc =>
              { month := mdy.1, day := mdy.2.1, year := mdy.2.2,
                amount1 := a1, amount2 := a2, cleared := cf,
                number := npmc.1, payee := npmc.2.1,
                memo := npmc.2.2.1, category := npmc.2.2.2 }
  | _ => none

/-- The transactions-export pattern (transactions.go 234): payee and
memo both optional. -/
def parseEntryTx : List GoStr → Option RawTxn := parseEntry true

/-- The balance-history pattern (balancehistory.go 230): payee
mandatory, memo optional. -/
def parseEntryBH : List GoStr → Option RawTxn := parseEntry false

/-! ### The transactions-export pipeline (transactions.go `Run`) -/

/-- The canonical exported record. -/
structure TransactionRecord : Type where
  Date : GoStr
  Merchant : GoStr
  Category : GoStr
  Account : GoStr
  OriginalStatement : GoStr
  Notes : GoStr
  Amount : GoStr
  Tags : GoStr
deriving DecidableEq, Repr

/-- Key lookup in a mapping table (a Go map with unique keys). -/
def lookupMap : List (GoStr × GoStr) → GoStr → Option GoStr
  | [], _ => none
  | (k, v) :: m, s => if k = s then some v else lookupMap m s

/-- Function `applyMapping`: exact, case-sensitive match; no match returns the
input unchanged. -/
def applyMapping (input : GoStr) (mapping : List (GoStr × GoStr)) : GoStr :=
  match lookupMap mapping input with
  | some v => v
  | none => input

/-- The per-run configuration consumed by the transaction loop. -/
structure TxConfig : Type where
  startDate : Option GoDate
  endDate : Option GoDate
  addTagForImport : Bool
  maxRecordsPerFile : ℕ
  payeeMapping : List (GoStr × GoStr)
  categoryMapping : List (GoStr × GoStr)
  tagMapping : List (GoStr × GoStr)

/-- Sentinel `"QIFIMPORT"`. -/
def qifImportTag : GoStr := ['Q', 'I', 'F', 'I', 'M', 'P', 'O', 'R', 'T']

/-- transactions.go 359-365: use the account mapping's entry when it is
non-empty, otherwise keep the QIF account name. -/
def outputAccountNameOf (accountMapping : List (GoStr × GoStr)) (accountName : GoStr) : GoStr :=
  match lookupMap accountMapping accountName with
  | some v => if 0 < v.length then v else accountName
  | none => accountName

/-- The body of the per-transaction loop (transactions.go 441-533):
normalize the amount, map the payee and strip quotes, split and map
category/tag, optionally prepend the import tag, build the canonical
date and apply the date-range filter (`none` = the `continue`
branches), and assemble the record. -/
def processTxn (cfg : TxConfig) (outputAccountName : GoStr) (t : RawTxn) :
    Option TransactionRecord :=
  let amount1 := normalizeAmount t.amount1
  let payee := removeQuotes (applyMapping (trimSpace t.payee) cfg.payeeMapping)
  let transactionMemo := trimSpace t.memo
  let ct := SplitCategoryAndTag (trimSpace t.category)
  let category := applyMapping (trimSpace ct.1) cfg.categoryMapping
  let tag0 := applyMapping (trimSpace ct.2) cfg.tagMapping
  let tag := if cfg.addTagForImport then
               (if tag0.isEmpty then qifImportTag else qifImportTag ++ ',' :: tag0)
             else tag0
  let fullDate := mkFullDate (trimSpace t.year) (trimSpace t.month) (trimSpace t.day)
  if dateFilterAdmits cfg.startDate cfg.endDate fullDate then
    some { Date := fullDate, Merchant := payee, Category := category,
           Account := outputAccountName, OriginalStatement := payee,
           Notes := transactionMemo, Amount := amount1, Tags := tag }
  else none

/-- The admitted records of one account, in source order. -/
def admittedRecords (cfg : TxConfig) (accountMapping : List (GoStr × GoStr))
    (accountName : GoStr) (ts : List RawTxn) : List TransactionRecord :=
  ts.filterMap (processTxn cfg (outputAccountNameOf accountMapping accountName))

/-- The file-splitting loop (transactions.go 545-591): write each record
into the current file, increment the global count, and whenever
`maxRecordsPerFile != 0 && count % maxRecordsPerFile == 0` close the
current file and immediately open the next one.  The final file is
closed after the loop. -/
def batchGo (k : ℕ) : ℕ → List TransactionRecord → List TransactionRecord →
    List (List TransactionRecord)
  | _, cur, [] => [cur]
  | cnt, cur, r :: rs =>
    if k ≠ 0 ∧ (cnt + 1) % k = 0 then
      (cur ++ [r]) :: batchGo k (cnt + 1) [] rs
    else
      batchGo k (cnt + 1) (cur ++ [r]) rs

/-- The output batcher: the sequence of files (file 1 is created before
the loop, so an account always yields at least one file). -/
def batchFiles (k : ℕ) (recs : List TransactionRecord) : List (List TransactionRecord) :=
  batchGo k 0 [] recs

/-- Naming `fmt.Sprintf("%s_%d%s", accountName, fileIndex, ext)`
(transactions.go 392 and 566): file names always use the *unmapped*
QIF account name. -/
def mkOutputFileName (accountName : GoStr) (fileIndex : ℕ) (ext : GoStr) : GoStr :=
  accountName ++ '_' :: (natDigits fileIndex ++ ext)

/-- Attach the sequential file names, starting at index `i`. -/
def nameFiles (accountName ext : GoStr) (i : ℕ) :
    List (List TransactionRecord) → List (GoStr × List TransactionRecord)
  | [] => []
  | f :: fs => (mkOutputFileName accountName i ext, f) :: nameFiles accountName ext (i + 1) fs

/-- One account's full run: map the account name, admit and normalize
the transactions, batch them into capped files named
`{accountName}_{n}{ext}` with the sequence starting at 1. -/
def processAccount (cfg : TxConfig) (accountMapping : List (GoStr × GoStr))
    (accountName ext : GoStr) (ts : List RawTxn) :
    List (GoStr × List TransactionRecord) :=
  nameFiles accountName ext 1
    (batchFiles cfg.maxRecordsPerFile (admittedRecords cfg accountMapping accountName ts))

/-! ### CSV row rendering (`buildCSVRow`, transactions.go 726-764) -/

/-- Go `strings.Split(s, ",")`. -/
def splitComma : GoStr → List GoStr
  | [] => [[]]
  | c :: r =>
    if c = ',' then [] :: splitComma r
    else
      match splitComma r with
      | [] => [[c]]
      | p :: ps => (c :: p) :: ps

/-- The recognised column names. -/
def colDate : GoStr := ['D', 'a', 't', 'e']

/-- Name `"Merchant"`. -/
def colMerchant : GoStr := ['M', 'e', 'r', 'c', 'h', 'a', 'n', 't']

/-- Name `"Category"`. -/
def colCategory : GoStr := ['C', 'a', 't', 'e', 'g', 'o', 'r', 'y']

/-- Name `"Account"`. -/
def colAccount : GoStr := ['A', 'c', 'c', 'o', 'u', 'n', 't']

/-- Name `"Original Statement"`. -/
def colOriginalStatement : GoStr :=
  ['O', 'r', 'i', 'g', 'i', 'n', 'a', 'l', ' ', 'S', 't', 'a', 't', 'e', 'm', 'e', 'n', 't']

/-- Name `"Notes"`. -/
def colNotes : GoStr := ['N', 'o', 't', 'e', 's']

/-- Name `"Amount"`. -/
def colAmount : GoStr := ['A', 'm', 'o', 'u', 'n', 't']

/-- Name `"Tags"`. -/
def colTags : GoStr := ['T', 'a', 'g', 's']

/-- The eight recognised column names, in switch order. -/
def recognizedColumns : List GoStr :=
  [colDate, colMerchant, colCategory, colAccount, colOriginalStatement,
   colNotes, colAmount, colTags]

/-- The `switch col` of `buildCSVRow`: value of one (already trimmed)
column name, empty for an unrecognised name. -/
def csvField (record : TransactionRecord) (col : GoStr) : GoStr :=
  if col = colDate then record.Date
  else if col = colMerchant then record.Merchant
  else if col = colCategory then record.Category
  else if col = colAccount then record.Account
  else if col = colOriginalStatement then record.OriginalStatement
  else if col = colNotes then record.Notes
  else if col = colAmount then record.Amount
  else if col = colTags then record.Tags
  else []

/-- Escaping `strings.ReplaceAll(val, quote, quote+quote)`: double every embedded
double-quote character. -/
def escQuotes : GoStr → GoStr
  | [] => []
  | c :: r => if c = quoteCh then quoteCh :: quoteCh :: escQuotes r else c :: escQuotes r

/-- One rendered field: the escaped value wrapped in double quotes. -/
def quoteField (v : GoStr) : GoStr := quoteCh :: (escQuotes v ++ [quoteCh])

/-- The tail of the row-building loop (`i > 0`: a comma before every
further field). -/
def joinQuotedRest : List GoStr → GoStr
  | [] => []
  | v :: vs => ',' :: (quoteField v ++ joinQuotedRest vs)

/-- The row-building loop over the field values. -/
def joinQuoted : List GoStr → GoStr
  | [] => []
  | v :: vs => quoteField v ++ joinQuotedRest vs

/-- Function `buildCSVRow`: split the column list, pick each (trimmed) column's
value, and emit the comma-joined quoted fields with a trailing
newline. -/
def buildCSVRow (record : TransactionRecord) (columns : GoStr) : GoStr :=
  let columnList := splitComma columns
  let values := columnList.map (fun col => csvField record (trimSpace col))
  joinQuoted values ++ ['\n']

/-! ### The balance-history admission step (balancehistory.go 245-299) -/

/-- One iteration of the balance-history transaction loop: trim and
comma-strip the amount, *skip the transaction on parse failure*
(`continue`, with only a printed warning), build the canonical date and
apply the same date filter; an admitted transaction contributes
`(fullDate, amount)` to the daily deltas. -/
def bhTxnDelta (startD endD : Option GoDate) (t : RawTxn) : Option (GoStr × ℚ) :=
  match goParseFloat (removeCommas (trimSpace t.amount1)) with
  | none => none
  | some q =>
    let fullDate := mkFullDate (trimSpace t.year) (trimSpace t.month) (trimSpace t.day)
    if dateFilterAdmits startD endD fullDate then some (fullDate, q) else none

/-! ### Concrete instances used in witnesses and counterexamples -/

/-- The claim's concatenation invariant fails: the components are
whitespace-trimmed, so `"a / b"` maps to `("a", "b")` and does not
reassemble. -/
def cexCategoryRaw : GoStr := ['a', ' ', '/', ' ', 'b']

/-- A record with all fields empty, for concrete instances. -/
def demoRecord : TransactionRecord := ⟨[], [], [], [], [], [], [], []⟩

/-- Shared empty run configuration for concrete instances. -/
def cfg0 : TxConfig := ⟨none, none, false, 0, [], [], []⟩

/-- A transaction whose (already comma-free) amount does not parse. -/
def cexBadAmountTxn : RawTxn :=
  { month := ['1'], day := ['1', '5'], year := ['2', '3'],
    amount1 := ['a', 'b', 'c'], amount2 := ['a', 'b', 'c'], cleared := ['X'],
    number := [], payee := ['P', 'a', 'y'], memo := [],
    category := ['F', 'o', 'o', 'd'] }

/-- The canonical string of a month-13 date, as the pipelines build it
from regex captures. -/
def badDate13 : GoStr := ['2', '0', '2', '3', '-', '1', '3', '-', '0', '1']

/-- A transaction dated month 13 (matched by `\d{1,2}`), with an
unparseable amount so that the record is concretely computable. -/
def cexBadDateTxn : RawTxn :=
  { month := ['1', '3'], day := ['1'], year := ['2', '3'],
    amount1 := ['x'], amount2 := ['x'], cleared := ['X'],
    number := [], payee := ['P'], memo := [],
    category := ['F', 'o', 'o', 'd'] }

/-- A well-formed entry that omits the payee line. -/
def entryNoPayee : List GoStr :=
  [['D', '1', '/', '1', '5', aposCh, '2', '3'],
   ['U', '-', '4', '5', '.', '2', '3'],
   ['T', '-', '4', '5', '.', '2', '3'],
   ['C', 'X'],
   ['L', 'F', 'o', 'o', 'd']]

/-! ## Theorems -/

/-- Helper `breakAtSlash` really splits at the first slash: the two parts
reassemble to the input and the left part is slash-free. -/
theorem breakAtSlash_some : ∀ {x pre post : GoStr},
    breakAtSlash x = some (pre, post) → pre ++ '/' :: post = x ∧ '/' ∉ pre := by
  intro x
  induction x with
  | nil => intro pre post h; simp [breakAtSlash] at h
  | cons c cs ih =>
    intro pre post h
    by_cases hc : c = '/'
    · subst hc
      simp [breakAtSlash] at h
      obtain ⟨h1, h2⟩ := h
      subst h1; subst h2
      exact ⟨rfl, by simp⟩
    · rw [breakAtSlash, if_neg hc] at h
      cases hbs : breakAtSlash cs with
      | none => rw [hbs] at h; simp at h
      | some ab =>
        obtain ⟨a, b⟩ := ab
        rw [hbs] at h
        simp at h
        obtain ⟨h1, h2⟩ := h
        obtain ⟨iha, ihb⟩ := ih hbs
        subst h1; subst h2
        refine ⟨by simpa using iha, ?_⟩
        simp [hc]
        exact ⟨fun hm => hc hm.symm, ihb⟩

/-- When `breakAtSlash` finds no slash, none occurs in the input. -/
theorem breakAtSlash_none : ∀ {x : GoStr}, breakAtSlash x = none → '/' ∉ x := by
  intro x
  induction x with
  | nil => intro _ h; simp at h
  | cons c cs ih =>
    intro h
    by_cases hc : c = '/'
    · subst hc; simp [breakAtSlash] at h
    · rw [breakAtSlash, if_neg hc] at h
      cases hbs : breakAtSlash cs with
      | none => simp [hc]; exact ⟨fun hm => hc hm.symm, ih hbs⟩
      | some ab => rw [hbs] at h; rcases ab with ⟨a, b⟩; simp at h

/-- C4 counterexample: on `"a / b"` the category is not the raw text
before the first slash, and `category ++ "/" ++ tag` differs from the
input. -/
theorem SplitCategoryAndTag_claim_cex :
    (SplitCategoryAndTag cexCategoryRaw).1 ≠ ['a', ' '] ∧
    ¬ ((SplitCategoryAndTag cexCategoryRaw).1 ++
        '/' :: (SplitCategoryAndTag cexCategoryRaw).2 = cexCategoryRaw) := by
  decide

/-- C4 (amended): splitting is on the first `/` only — the category is
the *whitespace-trimmed* text before it and the tag is the
*whitespace-trimmed* remainder (keeping any further slashes), so the
untrimmed parts reassemble to the input; with no slash the tag is empty
and the category is the trimmed input. -/
theorem SplitCategoryAndTag_spec (x : GoStr) :
    (∀ pre post, breakAtSlash x = some (pre, post) →
        SplitCategoryAndTag x = (trimSpace pre, trimSpace post) ∧
        pre ++ '/' :: post = x ∧ '/' ∉ pre) ∧
    (breakAtSlash x = none →
        SplitCategoryAndTag x = (trimSpace x, []) ∧ '/' ∉ x) := by
  constructor
  · intro pre post h
    refine ⟨?_, breakAtSlash_some h⟩
    simp [SplitCategoryAndTag, h]
  · intro h
    exact ⟨by simp [SplitCategoryAndTag, h], breakAtSlash_none h⟩

/-- C4 witness: the amended statement at `"a /b/c"`. -/
theorem SplitCategoryAndTag_spec_witness :
    SplitCategoryAndTag ['a', ' ', '/', 'b', '/', 'c'] =
      (trimSpace ['a', ' '], trimSpace ['b', '/', 'c']) ∧
    ['a', ' '] ++ '/' :: ['b', '/', 'c'] = ['a', ' ', '/', 'b', '/', 'c'] ∧
    '/' ∉ ['a', ' '] :=
  (SplitCategoryAndTag_spec ['a', ' ', '/', 'b', '/', 'c']).1 ['a', ' '] ['b', '/', 'c']
    (by decide)

/-! ### Sorting lemmas for `sortDates` -/

theorem selPass_length {α : Type} [LinearOrder α] (m : α) (xs : List α) :
    (selPass m xs).2.length = xs.length := by
  induction xs generalizing m with
  | nil => rfl
  | cons x xs ih =>
    by_cases h : x < m <;> simp [selPass, h, ih]

theorem selPass_perm {α : Type} [LinearOrder α] (m : α) (xs : List α) :
    List.Perm ((selPass m xs).1 :: (selPass m xs).2) (m :: xs) := by
  induction xs generalizing m with
  | nil => simp [selPass]
  | cons x xs ih =>
    by_cases h : x < m
    · simp only [selPass, if_pos h]
      exact (List.Perm.swap m _ _).trans ((ih x).cons m)
    · simp only [selPass, if_neg h]
      exact (List.Perm.swap x _ _).trans ((ih m).cons x) |>.trans (List.Perm.swap m x xs)

theorem selPass_min {α : Type} [LinearOrder α] (m : α) (xs : List α) :
    (selPass m xs).1 ≤ m ∧ ∀ y ∈ (selPass m xs).2, (selPass m xs).1 ≤ y := by
  induction xs generalizing m with
  | nil => exact ⟨le_refl m, by simp [selPass]⟩
  | cons x xs ih =>
    by_cases h : x < m
    · simp only [selPass, if_pos h]
      obtain ⟨h1, h2⟩ := ih x
      refine ⟨h1.trans h.le, ?_⟩
      intro y hy
      rcases List.mem_cons.mp hy with hy | hy
      · subst hy; exact h1.trans h.le
      · exact h2 y hy
    · simp only [selPass, if_neg h]
      obtain ⟨h1, h2⟩ := ih m
      refine ⟨h1, ?_⟩
      intro y hy
      rcases List.mem_cons.mp hy with hy | hy
      · subst hy; exact h1.trans (not_lt.mp h)
      · exact h2 y hy

theorem sortAux_perm {α : Type} [LinearOrder α] :
    ∀ (n : ℕ) (l : List α), l.length = n → List.Perm (sortAux n l) l := by
  intro n
  induction n with
  | zero => intro l _; exact List.Perm.refl l
  | succ n ih =>
    intro l h
    cases l with
    | nil => exact List.Perm.refl []
    | cons x xs =>
      have hlen : (selPass x xs).2.length = n := by
        rw [selPass_length]; simpa using h
      exact (((ih _ hlen).cons (selPass x xs).1).trans (selPass_perm x xs) :)

theorem sortAux_sorted {α : Type} [LinearOrder α] :
    ∀ (n : ℕ) (l : List α), l.length = n → List.Sorted (· ≤ ·) (sortAux n l) := by
  intro n
  induction n with
  | zero =>
    intro l h
    rw [List.length_eq_zero.mp h]
    exact List.sorted_nil
  | succ n ih =>
    intro l h
    cases l with
    | nil => exact List.sorted_nil
    | cons x xs =>
      have hlen : (selPass x xs).2.length = n := by
        rw [selPass_length]; simpa using h
      rw [sortAux, List.sorted_cons]
      refine ⟨?_, ih _ hlen⟩
      intro b hb
      have hb2 : b ∈ (selPass x xs).2 := (sortAux_perm n _ hlen).mem_iff.mp hb
      exact (selPass_min x xs).2 b hb2

/-- Function `sortDates` returns a permutation of its input. -/
theorem sortDates_perm {α : Type} [LinearOrder α] (l : List α) :
    List.Perm (sortDates l) l :=
  sortAux_perm l.length l rfl

/-- Function `sortDates` sorts ascending. -/
theorem sortDates_sorted {α : Type} [LinearOrder α] (l : List α) :
    List.Sorted (· ≤ ·) (sortDates l) :=
  sortAux_sorted l.length l rfl

/-! ### Daily-delta-map lemmas -/

theorem bump_mem_keys (m : List (GoStr × ℚ)) (k : GoStr) (a : ℚ) (d : GoStr) :
    d ∈ (bump m k a).map Prod.fst ↔ d ∈ m.map Prod.fst ∨ d = k := by
  induction m with
  | nil => simp [bump]
  | cons p m ih =>
    obtain ⟨pk, pv⟩ := p
    by_cases h : pk = k
    · subst h
      simp [bump]
      tauto
    · simp [bump, h, ih]
      tauto

theorem bump_keys_nodup (m : List (GoStr × ℚ)) (k : GoStr) (a : ℚ)
    (h : (m.map Prod.fst).Nodup) : ((bump m k a).map Prod.fst).Nodup := by
  induction m with
  | nil => simp [bump]
  | cons p m ih =>
    obtain ⟨pk, pv⟩ := p
    rw [List.map_cons, List.nodup_cons] at h
    obtain ⟨hpk, hnd⟩ := h
    by_cases hk : pk = k
    · subst hk
      simp only [bump, if_true]
      rw [List.map_cons, List.nodup_cons]
      exact ⟨hpk, hnd⟩
    · simp only [bump, if_neg hk]
      rw [List.map_cons, List.nodup_cons]
      refine ⟨?_, ih hnd⟩
      intro hmem
      rcases (bump_mem_keys m k a pk).mp hmem with hm | hm
      · exact hpk hm
      · exact hk hm

theorem bump_total (m : List (GoStr × ℚ)) (k : GoStr) (a : ℚ) :
    totalOf (bump m k a) = totalOf m + a := by
  induction m with
  | nil => simp [bump, totalOf]
  | cons p m ih =>
    obtain ⟨pk, pv⟩ := p
    by_cases h : pk = k
    · subst h
      simp [bump, totalOf]
      ring
    · simp [bump, h, totalOf] at ih ⊢
      rw [ih]
      ring

theorem accum_keys_mem :
    ∀ (ts : List (GoStr × ℚ)) (init : List (GoStr × ℚ)) (d : GoStr),
      d ∈ ((ts.foldl (fun m p => bump m p.1 p.2) init).map Prod.fst) ↔
        d ∈ init.map Prod.fst ∨ ∃ q, (d, q) ∈ ts := by
  intro ts
  induction ts with
  | nil => simp
  | cons p ts ih =>
    intro init d
    rw [List.foldl_cons, ih, bump_mem_keys]
    constructor
    · rintro (⟨hm | hm⟩ | ⟨q, hq⟩)
      · exact Or.inl hm
      · exact Or.inr ⟨p.2, by simp [hm]⟩
      · exact Or.inr ⟨q, List.mem_cons_of_mem _ hq⟩
    · rintro (hm | ⟨q, hq⟩)
      · exact Or.inl (Or.inl hm)
      · rcases List.mem_cons.mp hq with hq | hq
        · exact Or.inl (Or.inr (by rw [← hq]))
        · exact Or.inr ⟨q, hq⟩

theorem accum_keys_nodup :
    ∀ (ts : List (GoStr × ℚ)) (init : List (GoStr × ℚ)),
      (init.map Prod.fst).Nodup →
      (((ts.foldl (fun m p => bump m p.1 p.2) init).map Prod.fst)).Nodup := by
  intro ts
  induction ts with
  | nil => intro init h; simpa using h
  | cons p ts ih =>
    intro init h
    exact ih _ (bump_keys_nodup init p.1 p.2 h)

/-- The daily-delta map has pairwise-distinct date keys. -/
theorem accumDeltas_keys_nodup (adm : List (GoStr × ℚ)) :
    ((accumDeltas adm).map Prod.fst).Nodup :=
  accum_keys_nodup adm [] (by simp)

/-- A date is in the daily-delta map iff some admitted transaction
carries it. -/
theorem accumDeltas_mem (adm : List (GoStr × ℚ)) (d : GoStr) :
    d ∈ (accumDeltas adm).map Prod.fst ↔ ∃ q, (d, q) ∈ adm := by
  rw [accumDeltas, accum_keys_mem]
  simp

theorem lookupD_keys {m : List (GoStr × ℚ)} (h : (m.map Prod.fst).Nodup) :
    (m.map Prod.fst).map (lookupD m) = m.map Prod.snd := by
  induction m with
  | nil => rfl
  | cons p m ih =>
    obtain ⟨pk, pv⟩ := p
    rw [List.map_cons, List.nodup_cons] at h
    have htail : ∀ x ∈ m.map Prod.fst, lookupD ((pk, pv) :: m) x = lookupD m x := by
      intro x hx
      have hne : pk ≠ x := fun hpk => h.1 (by rw [hpk]; exact hx)
      simp [lookupD, hne]
    calc ((((pk, pv) :: m).map Prod.fst).map (lookupD ((pk, pv) :: m)))
        = lookupD ((pk, pv) :: m) pk :: ((m.map Prod.fst).map (lookupD ((pk, pv) :: m))) := by
          simp
      _ = pv :: ((m.map Prod.fst).map (lookupD m)) := by
          rw [List.map_congr_left htail]; simp [lookupD]
      _ = ((pk, pv) :: m).map Prod.snd := by rw [ih h.2]; simp

/-! ### Emission-loop lemmas -/

theorem runForward_map_fst (m : List (GoStr × ℚ)) :
    ∀ (ks : List GoStr) (b : ℚ), (runForward b m ks).map Prod.fst = ks := by
  intro ks
  induction ks with
  | nil => intro b; rfl
  | cons d ds ih => intro b; simp [runForward, ih]

theorem runForward_last (m : List (GoStr × ℚ)) :
    ∀ (ks : List GoStr) (b : ℚ), ks ≠ [] →
      ((runForward b m ks).map Prod.snd).getLast? =
        some (b + (ks.map (lookupD m)).sum) := by
  intro ks
  induction ks with
  | nil => intro b h; exact absurd rfl h
  | cons d ds ih =>
    intro b _
    cases ds with
    | nil => simp [runForward]
    | cons d2 ds2 =>
      have hne : d2 :: ds2 ≠ [] := by simp
      calc ((runForward b m (d :: d2 :: ds2)).map Prod.snd).getLast?
          = ((runForward (b + lookupD m d) m (d2 :: ds2)).map Prod.snd).getLast? := by
            simp [runForward]
        _ = some (b + lookupD m d + ((d2 :: ds2).map (lookupD m)).sum) := ih _ hne
        _ = some (b + ((d :: d2 :: ds2).map (lookupD m)).sum) := by
            simp [add_assoc]

/-- The admitted pairs yield a non-empty delta map. -/
theorem accumDeltas_ne_nil {adm : List (GoStr × ℚ)} (h : adm ≠ []) :
    accumDeltas adm ≠ [] := by
  obtain ⟨p, rest, rfl⟩ := List.exists_cons_of_ne_nil h
  intro hnil
  have hmem : p.1 ∈ (accumDeltas (p :: rest)).map Prod.fst :=
    (accumDeltas_mem _ _).mpr ⟨p.2, by simp⟩
  rw [hnil] at hmem
  simp at hmem

/-- C1: in backward mode over a non-empty admitted set, the engine runs
the ascending forward iteration from `currentBalance - totalChange`,
and the last emitted balance equals the supplied current balance
(exact arithmetic). -/
theorem backwardMode_lastBalance (adm : List (GoStr × ℚ)) (b : ℚ) (hne : adm ≠ []) :
    balanceSeries (BalanceAnchor.current b) adm =
      runForward (b - totalOf (accumDeltas adm)) (accumDeltas adm)
        (sortDates ((accumDeltas adm).map Prod.fst)) ∧
    ((balanceSeries (BalanceAnchor.current b) adm).map Prod.snd).getLast? = some b := by
  refine ⟨rfl, ?_⟩
  have hmne : accumDeltas adm ≠ [] := accumDeltas_ne_nil hne
  have hnd : ((accumDeltas adm).map Prod.fst).Nodup := accumDeltas_keys_nodup adm
  have hkne : sortDates ((accumDeltas adm).map Prod.fst) ≠ [] := by
    intro hk
    have hlen := (sortDates_perm ((accumDeltas adm).map Prod.fst)).length_eq
    rw [hk] at hlen
    exact hmne (List.length_eq_zero.mp (by simpa using hlen.symm))
  rw [balanceSeries, balanceFromDeltas, runForward_last _ _ _ hkne]
  have hsum : ((sortDates ((accumDeltas adm).map Prod.fst)).map (lookupD (accumDeltas adm))).sum
      = totalOf (accumDeltas adm) := by
    rw [((sortDates_perm _).map (lookupD (accumDeltas adm))).sum_eq]
    rw [lookupD_keys hnd]
    rfl
  rw [hsum]
  norm_num

/-- C1 witness: two days of deltas against a current balance of 2500. -/
theorem backwardMode_lastBalance_witness :
    balanceSeries (BalanceAnchor.current 2500)
        [(['d', '1'], -45), (['d', '2'], -35)] =
      runForward (2500 - totalOf (accumDeltas [(['d', '1'], -45), (['d', '2'], -35)]))
        (accumDeltas [(['d', '1'], -45), (['d', '2'], -35)])
        (sortDates ((accumDeltas [(['d', '1'], -45), (['d', '2'], -35)]).map Prod.fst)) ∧
    ((balanceSeries (BalanceAnchor.current 2500)
        [(['d', '1'], -45), (['d', '2'], -35)]).map Prod.snd).getLast? = some 2500 :=
  backwardMode_lastBalance [(['d', '1'], -45), (['d', '2'], -35)] 2500 (by decide)

/-- C5: forward mode seeded with `currentBalance - totalChange`
produces exactly the series backward mode produces for
`currentBalance` — same dates, same order, same exact values. -/
theorem forwardBackward_equiv (m : List (GoStr × ℚ)) (b : ℚ) :
    balanceFromDeltas (BalanceAnchor.opening (b - totalOf m)) m =
    balanceFromDeltas (BalanceAnchor.current b) m := rfl

/-- C8: in either mode the emitted dates are exactly the distinct dates
of the admitted transactions, in strictly ascending (lexicographic)
order — one record per date with at least one admitted transaction,
none for any other date. -/
theorem balanceSeries_dates (a : BalanceAnchor) (adm : List (GoStr × ℚ)) :
    List.Sorted (· < ·) ((balanceSeries a adm).map Prod.fst) ∧
    ∀ d, (d ∈ (balanceSeries a adm).map Prod.fst ↔ ∃ q, (d, q) ∈ adm) := by
  have hmap : (balanceSeries a adm).map Prod.fst =
      sortDates ((accumDeltas adm).map Prod.fst) := by
    cases a with
    | opening b => exact runForward_map_fst _ _ _
    | current b => exact runForward_map_fst _ _ _
  constructor
  · rw [hmap]
    refine List.Sorted.lt_of_le (sortDates_sorted _) ?_
    exact (sortDates_perm _).nodup_iff.mpr (accumDeltas_keys_nodup adm)
  · intro d
    rw [hmap, (sortDates_perm _).mem_iff, accumDeltas_mem]

/-! ### Output-batcher lemmas -/

theorem succ_mod (k cnt : ℕ) (hk : 0 < k) :
    (cnt + 1) % k = if cnt % k + 1 = k then 0 else cnt % k + 1 := by
  have h1 : cnt % k < k := Nat.mod_lt _ hk
  by_cases hk1 : k = 1
  · subst hk1
    simp [Nat.mod_one]
  · have h1m : 1 % k = 1 := Nat.mod_eq_of_lt (by omega)
    rw [Nat.add_mod, h1m]
    by_cases he : cnt % k + 1 = k
    · rw [if_pos he, he, Nat.mod_self]
    · rw [if_neg he, Nat.mod_eq_of_lt (by omega)]

theorem batchGo_zero :
    ∀ (rs : List TransactionRecord) (cnt : ℕ) (cur : List TransactionRecord),
      batchGo 0 cnt cur rs = [cur ++ rs] := by
  intro rs
  induction rs with
  | nil => intro cnt cur; simp [batchGo]
  | cons r rs ih =>
    intro cnt cur
    rw [batchGo, if_neg (by simp)]
    rw [ih]
    simp

theorem batchGo_join (k : ℕ) :
    ∀ (rs : List TransactionRecord) (cnt : ℕ) (cur : List TransactionRecord),
      (batchGo k cnt cur rs).join = cur ++ rs := by
  intro rs
  induction rs with
  | nil => intro cnt cur; simp [batchGo]
  | cons r rs ih =>
    intro cnt cur
    rw [batchGo]
    by_cases hc : k ≠ 0 ∧ (cnt + 1) % k = 0
    · rw [if_pos hc]
      simp [List.join, ih]
    · rw [if_neg hc]
      simp [ih]

theorem batchGo_ne_nil (k : ℕ) :
    ∀ (rs : List TransactionRecord) (cnt : ℕ) (cur : List TransactionRecord),
      batchGo k cnt cur rs ≠ [] := by
  intro rs
  induction rs with
  | nil => intro cnt cur; simp [batchGo]
  | cons r rs ih =>
    intro cnt cur
    rw [batchGo]
    by_cases hc : k ≠ 0 ∧ (cnt + 1) % k = 0
    · rw [if_pos hc]; simp
    · rw [if_neg hc]; exact ih _ _

theorem batchGo_length (k : ℕ) (hk : 0 < k) :
    ∀ (rs : List TransactionRecord) (cnt : ℕ) (cur : List TransactionRecord),
      cur.length = cnt % k →
      (batchGo k cnt cur rs).length = (cur.length + rs.length) / k + 1 := by
  intro rs
  induction rs with
  | nil =>
    intro cnt cur hc
    have : cur.length / k = 0 := Nat.div_eq_of_lt (hc ▸ Nat.mod_lt _ hk)
    simp [batchGo, this]
  | cons r rs ih =>
    intro cnt cur hc
    have hmod := succ_mod k cnt hk
    by_cases hcl : cnt % k + 1 = k
    · have hz : (cnt + 1) % k = 0 := by rw [hmod, if_pos hcl]
      rw [batchGo, if_pos ⟨by omega, hz⟩, List.length_cons,
        ih (cnt + 1) [] (by simp [hz])]
      rw [hc]
      have hnum : cnt % k + (rs.length + 1) = rs.length + k := by omega
      simp only [List.length_cons, List.length_nil, Nat.zero_add]
      rw [hnum]
      rw [Nat.add_div_right _ hk]
    · have hnz : (cnt + 1) % k = cnt % k + 1 := by rw [hmod, if_neg hcl]
      rw [batchGo, if_neg (by simp [hnz])]
      rw [ih (cnt + 1) (cur ++ [r]) (by rw [List.length_append, hc]; simpa using hnz.symm)]
      have hnum : (cur ++ [r]).length + rs.length = cur.length + (r :: rs).length := by
        simp; omega
      rw [hnum]

theorem batchGo_dropLast (k : ℕ) (hk : 0 < k) :
    ∀ (rs : List TransactionRecord) (cnt : ℕ) (cur : List TransactionRecord),
      cur.length = cnt % k →
      ∀ f ∈ (batchGo k cnt cur rs).dropLast, f.length = k := by
  intro rs
  induction rs with
  | nil => intro cnt cur _; simp [batchGo]
  | cons r rs ih =>
    intro cnt cur hc
    have hmod := succ_mod k cnt hk
    by_cases hcl : cnt % k + 1 = k
    · have hz : (cnt + 1) % k = 0 := by rw [hmod, if_pos hcl]
      rw [batchGo, if_pos ⟨by omega, hz⟩]
      intro f hf
      obtain ⟨g, gs, hgs⟩ := List.exists_cons_of_ne_nil (batchGo_ne_nil k rs (cnt + 1) [])
      rw [hgs, List.dropLast_cons₂] at hf
      rcases List.mem_cons.mp hf with hf | hf
      · subst hf
        simpa [hc] using hcl
      · exact ih (cnt + 1) [] (by simp [hz]) f (by rw [hgs]; exact hf)
    · have hnz : (cnt + 1) % k = cnt % k + 1 := by rw [hmod, if_neg hcl]
      rw [batchGo, if_neg (by simp [hnz])]
      exact ih (cnt + 1) (cur ++ [r])
        (by rw [List.length_append, hc]; simpa using hnz.symm)

/-- C3 counterexample: with cap `k = 1` and a single admitted record the
batcher produces **2** files (the second holds only the header), while
`ceil(1/1) = 1`. -/
theorem fileSplit_claim_cex :
    (batchFiles 1 [demoRecord]).length = 2 ∧ (1 + 1 - 1) / 1 = 1 := by decide

/-- C3 (amended): with cap `k > 0` and `N` admitted records the batcher
produces `N / k + 1` files (one more than `ceil(N/k)` whenever `k`
divides `N`, because a fresh file is opened eagerly at every cap
boundary), every non-final file holds exactly `k` records, the files
together hold all records in order, and with `k = 0` there is exactly
one file holding all `N` records. -/
theorem fileSplit_count (k : ℕ) (recs : List TransactionRecord) :
    (0 < k → (batchFiles k recs).length = recs.length / k + 1 ∧
      ∀ f ∈ (batchFiles k recs).dropLast, f.length = k) ∧
    (batchFiles k recs).join = recs ∧
    batchFiles 0 recs = [recs] := by
  refine ⟨fun hk => ⟨?_, ?_⟩, ?_, ?_⟩
  · have := batchGo_length k hk recs 0 [] (by simp)
    simpa [batchFiles] using this
  · exact batchGo_dropLast k hk recs 0 [] (by simp)
  · simpa [batchFiles] using batchGo_join k recs 0 []
  · simpa [batchFiles] using batchGo_zero recs 0 []

/-- C3 witness: three records at cap 2 give `3 / 2 + 1 = 2` files. -/
theorem fileSplit_count_witness :
    (batchFiles 2 [demoRecord, demoRecord, demoRecord]).length =
      [demoRecord, demoRecord, demoRecord].length / 2 + 1 :=
  ((fileSplit_count 2 [demoRecord, demoRecord, demoRecord]).1 (by decide)).1

/-! ### File-naming and account-mapping lemmas -/

theorem nameFiles_snd (nm ext : GoStr) :
    ∀ (fs : List (List TransactionRecord)) (i : ℕ),
      (nameFiles nm ext i fs).map Prod.snd = fs := by
  intro fs
  induction fs with
  | nil => intro i; rfl
  | cons f fs ih => intro i; simp [nameFiles, ih]

theorem nameFiles_fst (nm ext : GoStr) :
    ∀ (fs : List (List TransactionRecord)) (i j : ℕ), j < fs.length →
      ((nameFiles nm ext i fs).map Prod.fst)[j]? =
        some (mkOutputFileName nm (i + j) ext) := by
  intro fs
  induction fs with
  | nil => intro i j hj; simp at hj
  | cons f fs ih =>
    intro i j hj
    cases j with
    | zero => simp [nameFiles]
    | succ j =>
      have hj2 : j < fs.length := by simpa using hj
      have := ih (i + 1) j hj2
      have harith : i + 1 + j = i + (j + 1) := by omega
      rw [harith] at this
      simpa [nameFiles] using this

theorem nameFiles_length (nm ext : GoStr) :
    ∀ (fs : List (List TransactionRecord)) (i : ℕ),
      (nameFiles nm ext i fs).length = fs.length := by
  intro fs
  induction fs with
  | nil => intro i; rfl
  | cons f fs ih => intro i; simp [nameFiles, ih]

/-- Every record a `processTxn` admits carries the account name it was
given. -/
theorem processTxn_account (cfg : TxConfig) (nm : GoStr) (t : RawTxn)
    (r : TransactionRecord) (h : processTxn cfg nm t = some r) : r.Account = nm := by
  simp only [processTxn] at h
  split at h
  · cases h; rfl
  · exact absurd h (by simp)

/-- C10: when the account mapping holds a non-empty entry for the QIF
account name, every emitted record's `Account` field carries the mapped
name, while every output file is still named
`{unmapped QIF name}_{n}{ext}` with `n` starting at 1. -/
theorem accountMapping_spec (cfg : TxConfig) (amap : List (GoStr × GoStr))
    (accountName ext : GoStr) (ts : List RawTxn) (v : GoStr)
    (hv : lookupMap amap accountName = some v) (hne : v ≠ []) :
    (∀ nf ∈ processAccount cfg amap accountName ext ts, ∀ r ∈ nf.2, r.Account = v) ∧
    (∀ j, j < (processAccount cfg amap accountName ext ts).length →
      ((processAccount cfg amap accountName ext ts).map Prod.fst)[j]? =
        some (mkOutputFileName accountName (j + 1) ext)) := by
  have hout : outputAccountNameOf amap accountName = v := by
    unfold outputAccountNameOf
    rw [hv]
    simp [List.length_pos.mpr hne]
  constructor
  · intro nf hnf r hr
    have hsnd : nf.2 ∈ batchFiles cfg.maxRecordsPerFile
        (admittedRecords cfg amap accountName ts) := by
      have := List.mem_map_of_mem Prod.snd hnf
      rwa [processAccount, nameFiles_snd] at this
    have hjoin : (batchFiles cfg.maxRecordsPerFile
        (admittedRecords cfg amap accountName ts)).join =
        admittedRecords cfg amap accountName ts := by
      simpa [batchFiles] using
        batchGo_join cfg.maxRecordsPerFile (admittedRecords cfg amap accountName ts) 0 []
    have hrec : r ∈ admittedRecords cfg amap accountName ts := by
      rw [← hjoin]
      exact List.mem_join.mpr ⟨nf.2, hsnd, hr⟩
    obtain ⟨t, _, ht⟩ := List.mem_filterMap.mp hrec
    rw [hout] at ht
    exact processTxn_account _ _ _ _ ht
  · intro j hj
    rw [processAccount] at hj ⊢
    rw [nameFiles_length] at hj
    have := nameFiles_fst accountName ext _ 1 j hj
    rwa [Nat.add_comm 1 j] at this

/-- C10 witness: account `"A"` mapped to `"B"`; the (single, empty)
output file is still named `A_1`. -/
theorem accountMapping_spec_witness :
    ((processAccount ⟨none, none, false, 0, [], [], []⟩ [(['A'], ['B'])]
        ['A'] [] []).map Prod.fst)[0]? =
      some (mkOutputFileName ['A'] (0 + 1) []) :=
  (accountMapping_spec ⟨none, none, false, 0, [], [], []⟩ [(['A'], ['B'])]
      ['A'] [] [] ['B'] (by decide) (by decide)).2 0 (by decide)

/-! ### CSV row lemmas -/

theorem intercalate_cons_cons (s a b : GoStr) (t : List GoStr) :
    List.intercalate s (a :: b :: t) = a ++ s ++ List.intercalate s (b :: t) := by
  simp [List.intercalate, List.intersperse]

theorem joinQuoted_eq :
    ∀ vs : List GoStr, joinQuoted vs = List.intercalate [','] (vs.map quoteField) := by
  intro vs
  induction vs with
  | nil => simp [joinQuoted, List.intercalate]
  | cons v vs ih =>
    cases vs with
    | nil => simp [joinQuoted, joinQuotedRest, List.intercalate, List.intersperse]
    | cons w ws =>
      have hrest : joinQuotedRest (w :: ws) = ',' :: joinQuoted (w :: ws) := rfl
      rw [List.map_cons, List.map_cons, intercalate_cons_cons, ← List.map_cons, ← ih]
      simp only [joinQuoted, hrest]
      simp

theorem escQuotes_eq_bind (v : GoStr) :
    escQuotes v = v.bind (fun c => if c = quoteCh then [quoteCh, quoteCh] else [c]) := by
  induction v with
  | nil => rfl
  | cons c r ih =>
    by_cases h : c = quoteCh <;> simp [escQuotes, h, ih]

theorem csvField_known (r : TransactionRecord) (c : GoStr) :
    c ∈ recognizedColumns ∨ csvField r c = [] := by
  unfold csvField
  split_ifs with h1 h2 h3 h4 h5 h6 h7 h8
  · exact Or.inl (by rw [h1]; simp [recognizedColumns])
  · exact Or.inl (by rw [h2]; simp [recognizedColumns])
  · exact Or.inl (by rw [h3]; simp [recognizedColumns])
  · exact Or.inl (by rw [h4]; simp [recognizedColumns])
  · exact Or.inl (by rw [h5]; simp [recognizedColumns])
  · exact Or.inl (by rw [h6]; simp [recognizedColumns])
  · exact Or.inl (by rw [h7]; simp [recognizedColumns])
  · exact Or.inl (by rw [h8]; simp [recognizedColumns])
  · exact Or.inr rfl

/-- C9: `buildCSVRow` renders exactly one field per listed column, in
list order, each field the trimmed column's value wrapped in double
quotes with embedded quotes doubled, joined by commas and terminated by
a newline; a column name outside the eight recognised names yields the
empty value (hence an empty quoted field). -/
theorem buildCSVRow_spec (record : TransactionRecord) (columns : GoStr) :
    buildCSVRow record columns =
      List.intercalate [','] ((splitComma columns).map
        (fun col => quoteField (csvField record (trimSpace col)))) ++ ['\n'] ∧
    (∀ v, escQuotes v = v.bind (fun c => if c = quoteCh then [quoteCh, quoteCh] else [c])) ∧
    (∀ r c, c ∈ recognizedColumns ∨ csvField r c = []) := by
  refine ⟨?_, escQuotes_eq_bind, csvField_known⟩
  rw [buildCSVRow, joinQuoted_eq, List.map_map]
  rfl

/-! ### Amount-normalization lemmas -/

theorem normalizeAmount_of_none {raw : GoStr}
    (h : goParseFloat (removeCommas (trimSpace raw)) = none) :
    normalizeAmount raw = removeCommas (trimSpace raw) := by
  simp [normalizeAmount, h]

/-- C2 counterexample: in the transactions-export pipeline a
transaction whose amount `"abc"` fails to parse is *not* rejected — it
is emitted with the raw unparsed string as its `Amount`. -/
theorem amountParse_claim_cex :
    goParseFloat (removeCommas (trimSpace ['a', 'b', 'c'])) = none ∧
    processTxn cfg0 ['A', 'c', 'c', 't'] cexBadAmountTxn = some
      { Date := ['2', '0', '2', '3', '-', '0', '1', '-', '1', '5'],
        Merchant := ['P', 'a', 'y'], Category := ['F', 'o', 'o', 'd'],
        Account := ['A', 'c', 'c', 't'], OriginalStatement := ['P', 'a', 'y'],
        Notes := [], Amount := ['a', 'b', 'c'], Tags := [] } := by
  decide

/-- C2 (amended): on amount-parse failure the transactions-export
pipeline keeps the transaction, carrying the comma-stripped raw string
as its `Amount` (a record is dropped only by the date filter), while
the balance-history pipeline skips the transaction entirely (with only
a printed warning; no validation counter records the rejection). -/
theorem amountParse_behavior (t : RawTxn)
    (h : goParseFloat (removeCommas (trimSpace t.amount1)) = none) :
    (∀ cfg nm r, processTxn cfg nm t = some r →
        r.Amount = removeCommas (trimSpace t.amount1)) ∧
    (∀ cfg nm, processTxn cfg nm t = none →
        dateFilterAdmits cfg.startDate cfg.endDate
          (mkFullDate (trimSpace t.year) (trimSpace t.month) (trimSpace t.day)) = false) ∧
    (∀ sd ed, bhTxnDelta sd ed t = none) := by
  refine ⟨?_, ?_, ?_⟩
  · intro cfg nm r hr
    simp only [processTxn] at hr
    split at hr
    · cases hr
      exact normalizeAmount_of_none h
    · exact absurd hr (by simp)
  · intro cfg nm hnone
    simp only [processTxn] at hnone
    split at hnone
    · exact absurd hnone (by simp)
    · rename_i hcond
      simpa using hcond
  · intro sd ed
    simp [bhTxnDelta, h]

/-- C2 witness: the amended statement applied to the `"abc"` amount. -/
theorem amountParse_behavior_witness :
    bhTxnDelta none none cexBadAmountTxn = none :=
  (amountParse_behavior cexBadAmountTxn (by decide)).2.2 none none

/-! ### Date-filter lemmas -/

/-- C7 counterexample: `"2023-13-01"` fails to parse, yet with no
bounds set the filter admits it and the transactions pipeline emits the
record carrying the invalid date — the record is neither rejected nor
accounted. -/
theorem dateFilter_claim_cex :
    parseGoDate badDate13 = none ∧
    dateFilterAdmits none none badDate13 = true ∧
    processTxn cfg0 ['A'] cexBadDateTxn = some
      { Date := badDate13, Merchant := ['P'], Category := ['F', 'o', 'o', 'd'],
        Account := ['A'], OriginalStatement := ['P'],
        Notes := [], Amount := ['x'], Tags := [] } := by
  decide

/-- C7 (amended): a record whose canonical date fails to parse is
compared as Go's zero time (the parse error is discarded): with no
bounds it is admitted carrying the invalid date string; with a start
bound after year 1 it is silently skipped (no validation counter runs
for skipped records); with only an end bound not before year 1 it is
admitted. -/
theorem dateFilter_unparseable (sd e : GoDate) (fd : GoStr)
    (h : parseGoDate fd = none) :
    dateFilterAdmits none none fd = true ∧
    (dateBefore zeroGoDate sd = true → ∀ eo, dateFilterAdmits (some sd) eo fd = false) ∧
    (dateBefore e zeroGoDate = false → dateFilterAdmits none (some e) fd = true) := by
  refine ⟨?_, ?_, ?_⟩
  · simp [dateFilterAdmits, h]
  · intro hsd eo
    simp [dateFilterAdmits, h, hsd]
  · intro he
    simp [dateFilterAdmits, h, he]

/-- C7 witness: the amended statement at `"2023-13-01"` with bounds
2023-01-01 and 2023-12-31. -/
theorem dateFilter_unparseable_witness :
    dateFilterAdmits none none badDate13 = true ∧
    dateFilterAdmits (some ⟨2023, 1, 1⟩) none badDate13 = false ∧
    dateFilterAdmits none (some ⟨2023, 12, 31⟩) badDate13 = true :=
  ⟨(dateFilter_unparseable ⟨2023, 1, 1⟩ ⟨2023, 12, 31⟩ badDate13 (by decide)).1,
   (dateFilter_unparseable ⟨2023, 1, 1⟩ ⟨2023, 12, 31⟩ badDate13 (by decide)).2.1
     (by decide) none,
   (dateFilter_unparseable ⟨2023, 1, 1⟩ ⟨2023, 12, 31⟩ badDate13 (by decide)).2.2
     (by decide)⟩

/-! ### Entry-parser lemmas -/

/-- C6 counterexample: the entry with all mandatory lines but no payee
line is matched by the transactions-export pattern yet *rejected* by
the balance-history pattern, whose payee group is not optional. -/
theorem payeeOmitted_claim_cex :
    (parseEntryTx entryNoPayee).isSome = true ∧ parseEntryBH entryNoPayee = none := by
  decide

/-- C6 (amended): with the mandatory date/amount/cleared/category lines
present, the transactions-export parser matches the entry whether the
payee line, the memo line, or both are omitted, each omitted capture
being the empty string (which trims to the empty field); the
balance-history parser matches only when the payee line is present
(memo may still be omitted). -/
theorem optionalFields_parse (dl a1 a2 cf p mm cat mo dy yr : GoStr)
    (hdl : parseDLine dl = some (mo, dy, yr)) :
    parseEntryTx [dl, 'U' :: a1, 'T' :: a2, 'C' :: cf, 'L' :: cat] =
      some { month := mo, day := dy, year := yr, amount1 := a1, amount2 := a2,
             cleared := cf, number := [], payee := [], memo := [], category := cat } ∧
    parseEntryTx [dl, 'U' :: a1, 'T' :: a2, 'C' :: cf, 'M' :: mm, 'L' :: cat] =
      some { month := mo, day := dy, year := yr, amount1 := a1, amount2 := a2,
             cleared := cf, number := [], payee := [], memo := mm, category := cat } ∧
    parseEntryTx [dl, 'U' :: a1, 'T' :: a2, 'C' :: cf, 'P' :: p, 'L' :: cat] =
      some { month := mo, day := dy, year := yr, amount1 := a1, amount2 := a2,
             cleared := cf, number := [], payee := p, memo := [], category := cat } ∧
    parseEntryBH [dl, 'U' :: a1, 'T' :: a2, 'C' :: cf, 'P' :: p, 'L' :: cat] =
      some { month := mo, day := dy, year := yr, amount1 := a1, amount2 := a2,
             cleared := cf, number := [], payee := p, memo := [], category := cat } ∧
    trimSpace [] = ([] : GoStr) := by
  refine ⟨?_, ?_, ?_, ?_, rfl⟩ <;>
    simp [parseEntryTx, parseEntryBH, parseEntry, hdl, parseN, parseP, parseM,
      parseL, lineTag]

/-- C6 witness: the amended statement at the scenario date line
`D1/15'23` with empty captures. -/
theorem optionalFields_parse_witness :
    parseEntryTx [['D', '1', '/', '1', '5', aposCh, '2', '3'], ['U'], ['T'], ['C'], ['L']] =
      some { month := ['1'], day := ['1', '5'], year := ['2', '3'], amount1 := [],
             amount2 := [], cleared := [], number := [], payee := [], memo := [],
             category := [] } :=
  (optionalFields_parse ['D', '1', '/', '1', '5', aposCh, '2', '3'] [] [] [] [] []
    [] ['1'] ['1', '5'] ['2', '3'] (by decide)).1

end QifUtil
